import Mathlib

/-!
Shallow embedding of `sfackler/rust-postgres-array`.

The in-memory model (`Dimension`, `Array`, `from_parts`, `from_vec`, `wrap`,
`push`, `shift_idx`, `index`) follows `src/array.rs`; the wire codec
(`array_to_sql`, `array_from_sql`) follows the `ToSql`/`FromSql`
implementations in `src/impls.rs`.  Machine integers are modelled as
`Int`/`Nat` with explicit wrap-around (`% 2^32`, `% 2^64`) at the operations
where the Rust code performs `as` casts or release-mode wrapping arithmetic.
Rust panics and `try!`-propagated errors surface as `Option`/`Except`
results.
-/

namespace PostgresArray

/-- Reduction of an unbounded integer to the value of the `i32` with the same
low 32 bits (Rust release-mode wrapping semantics / `as i32` casts). -/
def i32wrap (z : Int) : Int := (z + 2 ^ 31) % 2 ^ 32 - 2 ^ 31

/-- `usize`-to-`i32` cast (`data.len() as i32`). -/
def i32ofNat (n : Nat) : Int := i32wrap n

/-- One axis of an array: `Dimension` in `src/array.rs` (`len: i32`,
`lower_bound: i32`). -/
structure Dimension where
  len : Int
  lowerBound : Int
deriving DecidableEq

/-- Modelled from the spec: the body of `Dimension::shift` is absent from
`src/` (only its caller `Array::shift_idx` appears in `src/array.rs`).
Spec section 4.1: computes `logical_index - lower_bound`; fails if the index is
below `lower_bound`, if the `i32` subtraction would overflow, or if the
resulting offset is `>= length`. -/
def Dimension.shift (d : Dimension) (idx : Int) : Option Int :=
  if idx < d.lowerBound then none
  else if 2 ^ 31 - 1 < idx - d.lowerBound then none
  else if d.len ≤ idx - d.lowerBound then none
  else some (idx - d.lowerBound)

/-- `Array<T>` from `src/array.rs`: dimension list plus row-major data. -/
structure Array (τ : Type) where
  dims : List Dimension
  data : List τ
deriving DecidableEq

/-- Exact (unbounded) product of the dimension lengths, used to state the
size invariant. -/
def prodLens (dims : List Dimension) : Int :=
  dims.foldl (fun acc d => acc * d.len) 1

/-- The `i32` fold `dimensions.iter().fold(1, |acc, i| acc * i.len)` from
`Array::from_parts`, with wrapping multiplication. -/
def i32prodLens (dims : List Dimension) : Int :=
  dims.foldl (fun acc d => i32wrap (acc * d.len)) 1

/-- `Array::from_parts`: the `assert!` size check becomes an `Option`
(`none` models the panic). -/
def from_parts (data : List τ) (dims : List Dimension) : Option (Array τ) :=
  if (data.isEmpty && dims.isEmpty) || (i32ofNat data.length == i32prodLens dims)
  then some ⟨dims, data⟩ else none

/-- `Array::from_vec`: a one-dimensional array (`len: data.len() as i32`). -/
def from_vec (data : List τ) (lowerBound : Int) : Array τ :=
  ⟨[⟨i32ofNat data.length, lowerBound⟩], data⟩

/-- `Array::wrap`: prepend a length-1 dimension. -/
def wrap (a : Array τ) (lowerBound : Int) : Array τ :=
  ⟨⟨1, lowerBound⟩ :: a.dims, a.data⟩

/-- `Array::push`: the two `assert!`s become the guard (`none` models the
panic; `other.dims.length + 1 = a.dims.length` is the non-underflowing
reading of `self.dims.len() - 1 == other.dims.len()`).  The increment
`self.dims[0].len += 1` is `i32` addition and wraps (release mode). -/
def push (a other : Array τ) : Option (Array τ) :=
  if (other.dims.length + 1 == a.dims.length)
      && (a.dims.tail.zip other.dims).all (fun p => p.1 == p.2) then
    match a.dims with
    | [] => none
    | d :: ds =>
        some ⟨⟨i32wrap (d.len + 1), d.lowerBound⟩ :: ds,
          a.data ++ other.data⟩
  else none

/-- `Array::shift_idx`: fold over dimensions innermost-first, accumulating
offset and stride.  The arithmetic of the fold is modelled exactly (it stays
within `i32` range for arrays whose data fits in memory). -/
def shift_idx (a : Array τ) (indices : List Int) : Option Int :=
  if a.dims.length = indices.length then
    (((a.dims.zip indices).reverse.foldl
      (fun st p => do
        let (acc, stride) ← st
        let shifted ← p.1.shift p.2
        pure (acc + shifted * stride, p.1.len * stride))
      (some ((0 : Int), (1 : Int)))).map Prod.fst)
  else none

/-- `Index<I> for Array<T>`: `&self.data[idx as usize]` with the bounds-check
panic modelled as `none` (a negative `idx` wraps to a huge `usize` and is
always out of bounds). -/
def index (a : Array τ) (indices : List Int) : Option τ :=
  match shift_idx a indices with
  | none => none
  | some i => if 0 ≤ i then a.data.get? i.toNat else none

/-- The documented size invariant of `Array<T>`:
`data.len() == product(dims[i].length)`. -/
def size_invariant (a : Array τ) : Prop :=
  (a.data.length : Int) = prodLens a.dims

/-- The spec's full invariant: the size equation, or the degenerate empty
array (`dims.is_empty() && data.is_empty()`). -/
def size_invariant_or_empty (a : Array τ) : Prop :=
  size_invariant a ∨ (a.dims = [] ∧ a.data = [])

instance (a : Array τ) : Decidable (size_invariant a) := by
  unfold size_invariant; infer_instance

instance [DecidableEq τ] (a : Array τ) : Decidable (size_invariant_or_empty a) := by
  unfold size_invariant_or_empty size_invariant; infer_instance

/-! ## Wire codec (`src/impls.rs`)

Byte streams are lists of byte values; `read_*` functions return the parsed
value together with the unconsumed rest of the stream.  `Except DecodeError`
models `postgres::Result`: `eof` is a truncated read, `elemError` an error
returned by the element decoder, `notConsumed` the
"from_sql call did not consume all data" conversion error, and `panicked`
the (unreachable, see below) panic of `Array::from_parts` at the end of
`from_sql`. -/

/-- Big-endian bytes of `n` as a `u32`. -/
def writeU32 (n : Nat) : List Nat :=
  [n / 2 ^ 24 % 256, n / 2 ^ 16 % 256, n / 2 ^ 8 % 256, n % 256]

/-- Big-endian bytes of `z` as an `i32` (two's complement). -/
def writeI32 (z : Int) : List Nat := writeU32 (z % 2 ^ 32).toNat

/-- Read a big-endian `u32`, returning it and the rest of the stream. -/
def readU32 : List Nat → Option (Nat × List Nat)
  | b0 :: b1 :: b2 :: b3 :: rest =>
      some (((b0 * 256 + b1) * 256 + b2) * 256 + b3, rest)
  | _ => none

/-- Two's-complement reinterpretation of a `u32` value as an `i32`. -/
def toSigned32 (n : Nat) : Int :=
  if n < 2 ^ 31 then (n : Int) else (n : Int) - 2 ^ 32

/-- Read a big-endian `i32`. -/
def readI32 (s : List Nat) : Option (Int × List Nat) :=
  (readU32 s).map fun p => (toSigned32 p.1, p.2)

inductive DecodeError where
  | eof
  | elemError
  | notConsumed
  | panicked
deriving DecidableEq

instance [DecidableEq ε] [DecidableEq α] : DecidableEq (Except ε α) := fun a b =>
  match a, b with
  | .error x, .error y =>
      if h : x = y then isTrue (by rw [h]) else
        isFalse (fun hc => h (Except.error.inj hc))
  | .error _, .ok _ => isFalse (fun hc => Except.noConfusion hc)
  | .ok _, .error _ => isFalse (fun hc => Except.noConfusion hc)
  | .ok x, .ok y =>
      if h : x = y then isTrue (by rw [h]) else
        isFalse (fun hc => h (Except.ok.inj hc))

/-- `try!(raw.read_u32::<BigEndian>())`. -/
def readU32E (s : List Nat) : Except DecodeError (Nat × List Nat) :=
  match readU32 s with
  | some p => .ok p
  | none => .error .eof

/-- `try!(raw.read_i32::<BigEndian>())`. -/
def readI32E (s : List Nat) : Except DecodeError (Int × List Nat) :=
  match readI32 s with
  | some p => .ok p
  | none => .error .eof

/-- The dimension-header loop of `from_sql`: `ndim` pairs of
(`u32` length, `i32` lower bound). -/
def read_dims : Nat → List Nat → Except DecodeError (List Dimension × List Nat)
  | 0, s => .ok ([], s)
  | n + 1, s => do
      let (len, s) ← readU32E s
      let (lb, s) ← readI32E s
      let (ds, s) ← read_dims n s
      pure (⟨(len : Int), lb⟩ :: ds, s)

/-- `nele`: 0 for zero dimensions, otherwise the `usize` product of the
dimension lengths (wrapping, 64-bit). -/
def nele_of (dims : List Dimension) : Nat :=
  if dims.isEmpty then 0
  else dims.foldl (fun p d => p * d.len.toNat % 2 ^ 64) 1

/-- One iteration of the element loop of `from_sql`: a signed 4-byte length;
negative means null with no payload; otherwise the payload is read through a
reader limited to `len` bytes and the element decoder `δ` must consume
exactly the declared length (`limit.limit() != 0` is the `notConsumed`
error).  `δ` returns the decoded value and the bytes it left unread. -/
def read_elem (δ : List Nat → Option (α × List Nat)) (s : List Nat) :
    Except DecodeError (Option α × List Nat) :=
  match readI32 s with
  | none => .error .eof
  | some (len, r) =>
    if len < 0 then .ok (none, r)
    else
      let payload := r.take len.toNat
      match δ payload with
      | none => .error .elemError
      | some (v, rem) =>
        if payload.length - rem.length = len.toNat
        then .ok (some v, r.drop len.toNat)
        else .error .notConsumed

/-- The element loop of `from_sql`, in order. -/
def read_elems (δ : List Nat → Option (α × List Nat)) :
    Nat → List Nat → Except DecodeError (List (Option α) × List Nat)
  | 0, s => .ok ([], s)
  | n + 1, s => do
      let (v, s) ← read_elem δ s
      let (vs, s) ← read_elems δ n s
      pure (v :: vs, s)

/-- `FromSql for Array<Option<T>>::from_sql` (`src/impls.rs`): header
(`ndim`, has-null flag, element OID), dimension headers, `nele` elements,
then `Array::from_parts`.  Trailing bytes are not inspected. -/
def array_from_sql (δ : List Nat → Option (α × List Nat)) (s : List Nat) :
    Except DecodeError (Array (Option α)) := do
  let (ndim, s) ← readU32E s
  let (_hasNull, s) ← readI32E s
  let (_elementOid, s) ← readU32E s
  let (dims, s) ← read_dims ndim s
  let (elements, _s) ← read_elems δ (nele_of dims) s
  match from_parts elements dims with
  | some a => pure a
  | none => throw .panicked

/-- The bytes written for one dimension by `to_sql`:
`info.len as u32` then `info.lower_bound as i32`. -/
def dim_bytes (d : Dimension) : List Nat :=
  writeU32 (d.len % 2 ^ 32).toNat ++ writeI32 d.lowerBound

/-- The bytes written for one element by `to_sql`: `-1` for a null
(`IsNull::Yes`), otherwise the scratch buffer's length as `i32` followed by
its bytes.  `ε` is the element encoder (`none` = null marker). -/
def elem_bytes (ε : τ → Option (List Nat)) (v : τ) : List Nat :=
  match ε v with
  | none => writeI32 (-1)
  | some bs => writeI32 (i32ofNat bs.length) ++ bs

/-- `ToSql for Array<T>::to_sql` (`src/impls.rs`): header with dimension
count, has-null flag hard-coded to 1 and the element OID, then the
dimension headers and the elements in row-major order, accumulated into the
output writer. -/
def array_to_sql (ε : τ → Option (List Nat)) (elementOid : Nat) (a : Array τ) :
    List Nat :=
  let w := writeU32 a.dims.length ++ writeI32 1 ++ writeU32 elementOid
  let w := a.dims.foldl (fun w d => w ++ dim_bytes d) w
  a.data.foldl (fun w v => w ++ elem_bytes ε v) w

/-- The encoder for `Option<T>` elements: `None` encodes as the null marker
(`IsNull::Yes`), `Some x` as `εp x`. -/
def opt_enc (εp : α → List Nat) : Option α → Option (List Nat) :=
  fun v => v.map εp

/-! ## Arithmetic helper lemmas -/

theorem i32wrap_lb (z : Int) : -2 ^ 31 ≤ i32wrap z := by
  unfold i32wrap; omega

theorem i32wrap_lt (z : Int) : i32wrap z < 2 ^ 31 := by
  unfold i32wrap; omega

theorem i32wrap_emod (z : Int) : i32wrap z % 2 ^ 32 = z % 2 ^ 32 := by
  unfold i32wrap; omega

theorem i32wrap_eq_self {z : Int} (h1 : -2 ^ 31 ≤ z) (h2 : z < 2 ^ 31) :
    i32wrap z = z := by
  unfold i32wrap; omega

theorem i32wrap_congr {a b : Int} (h : a % 2 ^ 32 = b % 2 ^ 32) :
    i32wrap a = i32wrap b := by
  unfold i32wrap; omega

theorem eq_of_emod_eq_of_range {a b : Int} (h : a % 2 ^ 32 = b % 2 ^ 32)
    (ha1 : -2 ^ 31 ≤ a) (ha2 : a < 2 ^ 31) (hb1 : -2 ^ 31 ≤ b)
    (hb2 : b < 2 ^ 31) : a = b := by
  omega

theorem i32ofNat_eq_self {n : Nat} (h : n < 2 ^ 31) : i32ofNat n = n := by
  unfold i32ofNat i32wrap; omega

/-! ## Byte-level reader/writer lemmas -/

theorem writeU32_length (n : Nat) : (writeU32 n).length = 4 := rfl

theorem writeI32_length (z : Int) : (writeI32 z).length = 4 := rfl

theorem dim_bytes_length (d : Dimension) : (dim_bytes d).length = 8 := rfl

theorem readU32_writeU32 (n : Nat) (r : List Nat) :
    readU32 (writeU32 n ++ r) = some (n % 2 ^ 32, r) := by
  simp only [writeU32, readU32, List.cons_append, List.nil_append,
    Option.some.injEq, Prod.mk.injEq, and_true]
  omega

theorem toSigned32_emod_toNat (z : Int) :
    toSigned32 (z % 2 ^ 32).toNat = i32wrap z := by
  unfold toSigned32 i32wrap
  split <;> omega

theorem readI32_writeI32 (z : Int) (r : List Nat) :
    readI32 (writeI32 z ++ r) = some (i32wrap z, r) := by
  have h : (z % 2 ^ 32).toNat % 2 ^ 32 = (z % 2 ^ 32).toNat := by omega
  simp only [readI32, writeI32, readU32_writeU32, Option.map, h,
    toSigned32_emod_toNat]

theorem readU32_eq_none {s : List Nat} (h : s.length < 4) : readU32 s = none := by
  match s with
  | [] => rfl
  | [_] => rfl
  | [_, _] => rfl
  | [_, _, _] => rfl
  | _ :: _ :: _ :: _ :: _ => simp only [List.length_cons] at h; omega

theorem readI32_eq_none {s : List Nat} (h : s.length < 4) : readI32 s = none := by
  simp [readI32, readU32_eq_none h]

theorem readU32_length_four {w : List Nat} (h : w.length = 4) (r : List Nat) :
    ∃ v, readU32 (w ++ r) = some (v, r) := by
  match w, h with
  | [b0, b1, b2, b3], _ => exact ⟨_, rfl⟩

theorem readI32_length_four {w : List Nat} (h : w.length = 4) (r : List Nat) :
    ∃ v, readI32 (w ++ r) = some (v, r) := by
  obtain ⟨v, hv⟩ := readU32_length_four h r
  exact ⟨toSigned32 v, by simp [readI32, hv]⟩

/-! ## Product-fold lemmas -/

theorem foldl_mul_acc (dims : List Dimension) (z : Int) :
    dims.foldl (fun acc d => acc * d.len) z = z * prodLens dims := by
  induction dims generalizing z with
  | nil => simp [prodLens]
  | cons d tl ih =>
      simp only [prodLens, List.foldl_cons] at *
      rw [ih (z * d.len), ih (1 * d.len)]
      ring

theorem prodLens_cons (d : Dimension) (tl : List Dimension) :
    prodLens (d :: tl) = d.len * prodLens tl := by
  have h1 : prodLens (d :: tl) =
      tl.foldl (fun acc d => acc * d.len) (1 * d.len) := by
    simp [prodLens]
  rw [h1, foldl_mul_acc, one_mul]

theorem i32prodLens_foldl_emod (dims : List Dimension) (z w : Int)
    (h : z % 2 ^ 32 = w % 2 ^ 32) :
    (dims.foldl (fun acc d => i32wrap (acc * d.len)) z) % 2 ^ 32 =
      (dims.foldl (fun acc d => acc * d.len) w) % 2 ^ 32 := by
  induction dims generalizing z w with
  | nil => simpa using h
  | cons d tl ih =>
      simp only [List.foldl_cons]
      refine ih _ _ ?_
      calc i32wrap (z * d.len) % 2 ^ 32
          = z * d.len % 2 ^ 32 := i32wrap_emod _
        _ = w * d.len % 2 ^ 32 := Int.ModEq.mul_right d.len h

theorem i32prodLens_emod (dims : List Dimension) :
    i32prodLens dims % 2 ^ 32 = prodLens dims % 2 ^ 32 :=
  i32prodLens_foldl_emod dims 1 1 rfl

theorem foldl_i32wrap_shape (dims : List Dimension) (z : Int)
    (h : dims ≠ []) :
    ∃ t, dims.foldl (fun acc d => i32wrap (acc * d.len)) z = i32wrap t := by
  induction dims generalizing z with
  | nil => exact absurd rfl h
  | cons d tl ih =>
      match tl, ih with
      | [], _ => exact ⟨z * d.len, rfl⟩
      | e :: tl2, ih =>
          obtain ⟨t, ht⟩ := ih (i32wrap (z * d.len)) (by simp)
          exact ⟨t, ht⟩

theorem i32prodLens_range (dims : List Dimension) (h : dims ≠ []) :
    -2 ^ 31 ≤ i32prodLens dims ∧ i32prodLens dims < 2 ^ 31 := by
  obtain ⟨t, ht⟩ := foldl_i32wrap_shape dims 1 h
  unfold i32prodLens
  rw [ht]
  exact ⟨i32wrap_lb t, i32wrap_lt t⟩

theorem i32prodLens_eq_prodLens {dims : List Dimension}
    (h1 : -2 ^ 31 ≤ prodLens dims) (h2 : prodLens dims < 2 ^ 31) :
    i32prodLens dims = prodLens dims := by
  match dims with
  | [] => rfl
  | d :: tl =>
      have hr := i32prodLens_range (d :: tl) (by simp)
      exact eq_of_emod_eq_of_range (i32prodLens_emod _) hr.1 hr.2 h1 h2

/-! ## C2: `from_parts` size check -/

/-- C2 counterexample: the claim says an explicitly empty dimension list
with non-empty data is always an error, but `from_parts(vec![x], vec![])`
passes the check (product of zero dimensions is 1, and the data length is
1), so it succeeds. -/
theorem from_parts_empty_dims_singleton :
    from_parts [(0 : Int)] [] = some ⟨[], [0]⟩ := by decide

/-- C2 (amended): for data and dimensions within `i32` range, `from_parts`
succeeds exactly when the data length equals the product of the dimension
lengths, or both are empty.  In particular empty dims with a one-element
data vector satisfies the product rule (product of zero dimensions is 1)
and is accepted; empty dims with two or more elements fail. -/
theorem from_parts_size_check (τ : Type) (data : List τ)
    (dims : List Dimension) (hd : data.length < 2 ^ 31)
    (hp1 : -2 ^ 31 ≤ prodLens dims) (hp2 : prodLens dims < 2 ^ 31) :
    (from_parts data dims).isSome ↔
      ((data.length : Int) = prodLens dims ∨ (data = [] ∧ dims = [])) := by
  unfold from_parts
  rw [i32prodLens_eq_prodLens hp1 hp2, i32ofNat_eq_self hd]
  split
  · rename_i h
    simp only [Option.isSome_some, true_iff]
    simp only [Bool.or_eq_true, Bool.and_eq_true, List.isEmpty_iff,
      beq_iff_eq] at h
    rcases h with ⟨h1, h2⟩ | h
    · exact Or.inr ⟨h1, h2⟩
    · exact Or.inl h
  · rename_i h
    simp only [Bool.or_eq_true, Bool.and_eq_true, List.isEmpty_iff,
      beq_iff_eq, not_or] at h
    simp only [Option.isSome_none, Bool.false_eq_true, false_iff, not_or]
    exact ⟨h.2, h.1⟩

/-- Witness for C2: a 2-element vector with one dimension of length 2 is
accepted. -/
theorem from_parts_size_check_wit :
    ((7 : Int) :: [8]).length < 2 ^ 31 ∧
      ((from_parts [(7 : Int), 8] [⟨2, 1⟩]).isSome ↔
        (((([(7 : Int), 8]).length : Int) = prodLens [⟨2, 1⟩]) ∨
          ([(7 : Int), 8] = [] ∧ ([⟨2, 1⟩] : List Dimension) = []))) :=
  ⟨by decide,
    from_parts_size_check Int [7, 8] [⟨2, 1⟩] (by decide) (by decide)
      (by decide)⟩

/-! ## C3: the size invariant under `wrap` and `push` -/

theorem zip_all_eq {l1 l2 : List Dimension} (hlen : l1.length = l2.length)
    (h : ((l1.zip l2).all fun p => p.1 == p.2) = true) : l1 = l2 := by
  induction l1 generalizing l2 with
  | nil => cases l2 with
      | nil => rfl
      | cons e tl2 => simp at hlen
  | cons d tl ih =>
      cases l2 with
      | nil => simp at hlen
      | cons e tl2 =>
          simp only [List.zip_cons_cons, List.all_cons, Bool.and_eq_true,
            beq_iff_eq] at h
          simp only [List.length_cons, Nat.add_right_cancel_iff] at hlen
          rw [h.1, ih hlen h.2]

/-- C3 counterexample: the degenerate empty array satisfies the spec's
invariant, but `wrap` on it produces dims `[{len: 1}]` with empty data,
which violates both disjuncts of the invariant (first conjunct).  `push`
also breaks the claimed preservation when the receiver's outer length is
`i32::MAX`: the invariant-satisfying arrays below are accepted by the
shape assertion, and the release-mode `i32` increment wraps the outer
length to `-2^31` while the data grows to `2^31` elements (second
conjunct). -/
theorem wrap_empty_breaks_invariant :
    (size_invariant_or_empty (⟨[], []⟩ : Array Int) ∧
      ¬ size_invariant_or_empty (wrap (⟨[], []⟩ : Array Int) 0)) ∧
      (size_invariant
          (⟨[⟨2 ^ 31 - 1, 0⟩], List.replicate (2 ^ 31 - 1) 0⟩ : Array Int) ∧
        size_invariant (⟨[], [0]⟩ : Array Int) ∧
        push (⟨[⟨2 ^ 31 - 1, 0⟩], List.replicate (2 ^ 31 - 1) 0⟩ : Array Int)
            ⟨[], [0]⟩ =
          some ⟨[⟨-2 ^ 31, 0⟩], List.replicate (2 ^ 31 - 1) 0 ++ [0]⟩ ∧
        ¬ size_invariant
          (⟨[⟨-2 ^ 31, 0⟩], List.replicate (2 ^ 31 - 1) 0 ++ [0]⟩ :
            Array Int)) := by
  refine ⟨⟨Or.inr ⟨rfl, rfl⟩, ?_⟩, ?_, by decide, ?_, ?_⟩
  · intro h
    rcases h with h | h
    · simp [size_invariant, wrap, prodLens] at h
    · simp [wrap] at h
  · unfold size_invariant prodLens
    rw [List.length_replicate, List.foldl_cons, List.foldl_nil]
    norm_num
  · have key : ∀ L : List Int,
        push (⟨[⟨2 ^ 31 - 1, 0⟩], L⟩ : Array Int) ⟨[], [0]⟩ =
          some ⟨[⟨-2 ^ 31, 0⟩], L ++ [0]⟩ := by
      intro L
      simp only [push, List.length_nil, List.length_cons, Nat.zero_add,
        List.tail_cons, List.zip_nil_right, List.all_nil, Bool.and_true]
      rw [if_pos (by decide)]
      rw [show i32wrap (2 ^ 31 - 1 + 1) = -2 ^ 31 from by decide]
    exact key _
  · unfold size_invariant prodLens
    rw [List.length_append, List.length_replicate, List.foldl_cons,
      List.foldl_nil]
    norm_num

/-- C3 (amended): every `Array` satisfying the strict size equation
`data.len() == product(dims)`, with dimension lengths small enough that
the outer increment cannot overflow `i32`, keeps the equation under
`wrap`, and under `push` whenever both arrays satisfy it and `push`
returns normally.  Not preserved: the degenerate empty array under `wrap`
(dims `[{len: 1}]` with empty data), and `push` when the outer length is
`i32::MAX` (the release-mode `i32` increment wraps it negative). -/
theorem wrap_push_preserve_size (τ : Type) (a b c : Array τ) (lb : Int)
    (hov : ∀ d ∈ a.dims, -2 ^ 31 ≤ d.len ∧ d.len + 1 < 2 ^ 31) :
    (size_invariant a → size_invariant (wrap a lb)) ∧
      (size_invariant a → size_invariant b → push a b = some c →
        size_invariant c) := by
  constructor
  · intro h
    unfold size_invariant wrap at *
    simp only [prodLens_cons, one_mul]
    exact h
  · intro ha hb hp
    unfold push at hp
    split at hp
    · rename_i hcond
      simp only [Bool.and_eq_true, beq_iff_eq] at hcond
      match hdm : a.dims, hcond, hp with
      | [], hcond, hp =>
          exact absurd hcond.1 (by simp)
      | d :: ds, hcond, hp =>
          simp only [List.tail_cons, List.length_cons] at hcond
          simp only [Option.some.injEq] at hp
          have hds : ds = b.dims := zip_all_eq (by omega) hcond.2
          have hd := hov d (by rw [hdm]; simp)
          subst hp
          unfold size_invariant at ha hb ⊢
          rw [hdm] at ha
          rw [← hds] at hb
          simp only [List.length_append, prodLens_cons] at ha ⊢
          rw [i32wrap_eq_self (by omega) (by omega)]
          push_cast
          rw [ha, hb]
          ring
    · exact absurd hp (by simp)

/-- Witness for C3: wrapping a 2-element one-dimensional array, and pushing
`[3,4]` onto `[[1,2]]`, both preserve the size equation. -/
theorem wrap_push_preserve_size_wit :
    size_invariant (wrap (⟨[⟨2, 0⟩], [1, 2]⟩ : Array Int) 5) ∧
      size_invariant (⟨[⟨2, 0⟩, ⟨2, 0⟩], [1, 2, 3, 4]⟩ : Array Int) :=
  ⟨(wrap_push_preserve_size Int ⟨[⟨2, 0⟩], [1, 2]⟩ ⟨[], []⟩ ⟨[], []⟩ 5
        (by decide)).1
      (by decide),
    (wrap_push_preserve_size Int ⟨[⟨1, 0⟩, ⟨2, 0⟩], [1, 2]⟩ ⟨[⟨2, 0⟩], [3, 4]⟩
        ⟨[⟨2, 0⟩, ⟨2, 0⟩], [1, 2, 3, 4]⟩ 0 (by decide)).2
      (by decide) (by decide) (by decide)⟩

/-! ## C4: row-major multi-index addressing on the 2×2 example -/

/-- C4: building the 2×2 array by wrapping the row `[1,2]` and pushing the
row `[3,4]` (all lower bounds 0), multi-index access resolves to the
row-major flat offsets: `index(0,0)=1`, `index(0,1)=2`, `index(1,0)=3`,
`index(1,1)=4`. -/
theorem two_by_two_indexing :
    ∃ arr : Array Int,
      push (wrap (from_vec [1, 2] 0) 0) (from_vec [3, 4] 0) = some arr ∧
        index arr [0, 0] = some 1 ∧ index arr [0, 1] = some 2 ∧
        index arr [1, 0] = some 3 ∧ index arr [1, 1] = some 4 := by
  exact ⟨⟨[⟨2, 0⟩, ⟨2, 0⟩], [1, 2, 3, 4]⟩, by decide, by decide, by decide,
    by decide, by decide⟩

/-! ## C5: `shift` and one-dimensional indexing -/

theorem shift_idx_one_dim (τ : Type) (d : Dimension) (data : List τ)
    (i : Int) : shift_idx (⟨[d], data⟩ : Array τ) [i] = d.shift i := by
  unfold shift_idx
  cases hs : d.shift i <;> simp [hs]

theorem index_one_dim (τ : Type) (d : Dimension) (data : List τ) (i : Int) :
    index (⟨[d], data⟩ : Array τ) [i] =
      match d.shift i with
      | none => none
      | some v => if 0 ≤ v then data.get? v.toNat else none := by
  unfold index
  rw [shift_idx_one_dim]

/-- C5: `shift` computes `logical_index - lower_bound` (failing below the
lower bound, on `i32` overflow of the subtraction, or at offsets at or
beyond the length), so for a one-dimensional array with lower bound `L` and
length `N`, index `L` yields the first element, `L+N-1` the last, and every
index below `L` or above `L+N-1` fails. -/
theorem one_dim_index_bounds (τ : Type) (data : List τ) (L : Int)
    (h : data.length < 2 ^ 31) :
    (∀ (d : Dimension) (i v : Int), d.shift i = some v →
        v = i - d.lowerBound) ∧
      index (from_vec data L) [L] = data.get? 0 ∧
      index (from_vec data L) [L + data.length - 1] =
        data.get? (data.length - 1) ∧
      ∀ i : Int, (i < L ∨ L + data.length - 1 < i) →
        index (from_vec data L) [i] = none := by
  have hI : (data.length : Int) < 2 ^ 31 := by exact_mod_cast h
  have hfv : from_vec data L = ⟨[⟨(data.length : Int), L⟩], data⟩ := by
    unfold from_vec
    rw [i32ofNat_eq_self h]
  refine ⟨?_, ?_, ?_, ?_⟩
  · intro d i v hv
    unfold Dimension.shift at hv
    split at hv
    · simp at hv
    · split at hv
      · simp at hv
      · split at hv
        · simp at hv
        · simp only [Option.some.injEq] at hv
          omega
  · rw [hfv, index_one_dim]
    unfold Dimension.shift
    dsimp only
    split_ifs with h1 h2 h3
    · omega
    · omega
    · have h0 : data = [] := List.length_eq_zero.mp (by omega)
      subst h0
      simp
    · have e : L - L = 0 := by ring
      rw [e]
      simp
  · rw [hfv, index_one_dim]
    unfold Dimension.shift
    dsimp only
    split_ifs with h1 h2 h3
    · have h0 : data = [] := List.length_eq_zero.mp (by omega)
      subst h0
      simp
    · omega
    · omega
    · have e : L + (data.length : Int) - 1 - L = (data.length : Int) - 1 := by
        ring
      rw [e]
      have h4 : (0 : Int) ≤ (data.length : Int) - 1 := by omega
      have h5 : ((data.length : Int) - 1).toNat = data.length - 1 := by omega
      simp only [h4, if_true, h5]
  · intro i hi
    rw [hfv, index_one_dim]
    unfold Dimension.shift
    dsimp only
    split_ifs with h1 h2 h3
    · rfl
    · rfl
    · rfl
    · exfalso
      omega

/-- Witness for C5: `from_vec [10,20,30] (-1)`. -/
theorem one_dim_index_bounds_wit :
    ([10, 20, 30] : List Int).length < 2 ^ 31 ∧
      index (from_vec ([10, 20, 30] : List Int) (-1)) [-1] = some 10 ∧
      index (from_vec ([10, 20, 30] : List Int) (-1)) [1] = some 30 ∧
      index (from_vec ([10, 20, 30] : List Int) (-1)) [-2] = none ∧
      index (from_vec ([10, 20, 30] : List Int) (-1)) [2] = none := by
  have H := one_dim_index_bounds Int [10, 20, 30] (-1) (by decide)
  refine ⟨by decide, ?_, ?_, ?_, ?_⟩
  · have := H.2.1
    simpa using this
  · have := H.2.2.1
    simpa using this
  · exact H.2.2.2 (-2) (by simp)
  · exact H.2.2.2 2 (by simp)

/-! ## C10: `push` onto a zero-dimensional array always fails -/

/-- C10: a receiver with no dimensions can never satisfy `push`'s shape
assertion (`self.dims.len() - 1 == other.dims.len()` has no solution when
the receiver's dimension count is 0), so `push` always panics. -/
theorem push_on_zero_dims_fails (τ : Type) (a b : Array τ)
    (h : a.dims = []) : push a b = none := by
  unfold push
  rw [h]
  simp

/-- Witness for C10. -/
theorem push_on_zero_dims_fails_wit :
    push (⟨[], []⟩ : Array Int) ⟨[⟨1, 0⟩], [5]⟩ = none :=
  push_on_zero_dims_fails Int ⟨[], []⟩ ⟨[⟨1, 0⟩], [5]⟩ rfl

/-! ## Encoder shape lemmas -/

theorem foldl_append_bind (β : Type) (f : β → List Nat) (l : List β)
    (init : List Nat) :
    l.foldl (fun w x => w ++ f x) init = init ++ l.flatMap f := by
  induction l generalizing init with
  | nil => simp
  | cons x tl ih =>
      simp only [List.foldl_cons, List.flatMap_cons, ih, List.append_assoc]

theorem array_to_sql_eq (τ : Type) (ε : τ → Option (List Nat)) (oid : Nat)
    (a : Array τ) :
    array_to_sql ε oid a =
      writeU32 a.dims.length ++ writeI32 1 ++ writeU32 oid ++
        a.dims.flatMap dim_bytes ++ a.data.flatMap (elem_bytes ε) := by
  unfold array_to_sql
  rw [foldl_append_bind, foldl_append_bind]

theorem drop_four_of_length {w r : List Nat} (h : w.length = 4) :
    (w ++ r).drop 4 = r := by
  rw [← h, List.drop_left]

theorem take_four_of_length {w r : List Nat} (h : w.length = 4) :
    (w ++ r).take 4 = w := by
  rw [← h, List.take_left]

/-! ## C7: encode layout -/

/-- C7: encoding writes, in order: the dimension count, the has-null flag
hard-coded to 1, the element-type OID, each dimension's length and lower
bound in the array's own order, and each element in row-major data order as
either the `-1` null sentinel with no payload or its encoded length followed
by its bytes verbatim; the second conjunct exhibits the hard-coded has-null
flag bytes. -/
theorem encode_layout (τ : Type) (ε : τ → Option (List Nat)) (oid : Nat)
    (a : Array τ) :
    (array_to_sql ε oid a =
      writeU32 a.dims.length ++ writeI32 1 ++ writeU32 oid ++
        (a.dims.flatMap fun d =>
          writeU32 (d.len % 2 ^ 32).toNat ++ writeI32 d.lowerBound) ++
        (a.data.flatMap fun v =>
          match ε v with
          | none => writeI32 (-1)
          | some bs => writeI32 (i32ofNat bs.length) ++ bs)) ∧
      ((array_to_sql ε oid a).drop 4).take 4 = [0, 0, 0, 1] := by
  constructor
  · exact array_to_sql_eq τ ε oid a
  · rw [array_to_sql_eq]
    simp only [List.append_assoc]
    rw [drop_four_of_length (writeU32_length _)]
    rw [take_four_of_length (writeI32_length _)]
    rfl

/-! ## C9: the has-null flag does not influence decoding -/

/-- C9: two input buffers that differ only in the 4-byte has-null field
decode identically — the flag is read and discarded, and nulls are detected
only by the per-element `-1` length sentinel. -/
theorem decode_ignores_has_null (α : Type)
    (δ : List Nat → Option (α × List Nat)) (w h h' rest : List Nat)
    (hw : w.length = 4) (hh : h.length = 4) (hh' : h'.length = 4) :
    array_from_sql δ (w ++ (h ++ rest)) =
      array_from_sql δ (w ++ (h' ++ rest)) := by
  match w, hw, h, hh, h', hh' with
  | [b0, b1, b2, b3], _, [c0, c1, c2, c3], _, [e0, e1, e2, e3], _ =>
      simp only [array_from_sql, readU32E, readI32E, readU32, readI32,
        List.cons_append, List.nil_append, Option.map, bind, Except.bind]

/-- Witness for C9: flipping the has-null field between garbage and 1 does
not change the decode result on a concrete one-element `int4`-style
buffer. -/
theorem decode_ignores_has_null_wit :
    array_from_sql (fun s => some (s, []))
        ([0, 0, 0, 1] ++ ([9, 9, 9, 9] ++
          [0, 0, 0, 23, 0, 0, 0, 1, 0, 0, 0, 2, 0, 0, 0, 4, 1, 2, 3, 4])) =
      array_from_sql (fun s => some (s, []))
        ([0, 0, 0, 1] ++ ([0, 0, 0, 1] ++
          [0, 0, 0, 23, 0, 0, 0, 1, 0, 0, 0, 2, 0, 0, 0, 4, 1, 2, 3, 4])) :=
  decode_ignores_has_null (List Nat) (fun s => some (s, [])) [0, 0, 0, 1]
    [9, 9, 9, 9] [0, 0, 0, 1]
    [0, 0, 0, 23, 0, 0, 0, 1, 0, 0, 0, 2, 0, 0, 0, 4, 1, 2, 3, 4] rfl rfl rfl

/-! ## C6: per-element decoding -/

/-- C6: each element is read as a 4-byte signed length; a negative length
yields a null element with no payload consumed; a non-negative length hands
exactly the declared payload to the element decoder, and if the decoder
leaves any declared payload bytes unconsumed the element decode is the
`notConsumed` error value rather than a success. -/
theorem element_decode_step (α : Type)
    (δ : List Nat → Option (α × List Nat)) (s r : List Nat) (len : Int)
    (v : α) (rem : List Nat) :
    (readI32 s = some (len, r) → len < 0 → read_elem δ s = .ok (none, r)) ∧
      (readI32 s = some (len, r) → 0 ≤ len → len.toNat ≤ r.length →
        δ (r.take len.toNat) = some (v, []) →
        read_elem δ s = .ok (some v, r.drop len.toNat)) ∧
      (readI32 s = some (len, r) → 0 ≤ len →
        δ (r.take len.toNat) = some (v, rem) → rem ≠ [] →
        rem.length ≤ (r.take len.toNat).length →
        read_elem δ s = .error .notConsumed) := by
  refine ⟨?_, ?_, ?_⟩
  · intro hr hneg
    unfold read_elem
    rw [hr]
    simp [hneg]
  · intro hr hpos hle hδ
    unfold read_elem
    rw [hr]
    dsimp only
    rw [if_neg (by omega), hδ]
    dsimp only
    have hlen : (r.take len.toNat).length = len.toNat := by
      simp only [List.length_take]
      omega
    rw [if_pos (by simp [hlen])]
  · intro hr hpos hδ hrem hle
    unfold read_elem
    rw [hr]
    dsimp only
    rw [if_neg (by omega), hδ]
    dsimp only
    have h0 : rem.length ≠ 0 := by
      intro hc
      exact hrem (List.length_eq_zero.mp hc)
    have htk : (r.take len.toNat).length ≤ len.toNat := by
      simp [List.length_take]
    rw [if_neg (by omega)]

/-- Witness for C6: a 2-byte payload with a decoder that consumes both
bytes, one that is handed a negative length, and one that leaves a byte
unread. -/
theorem element_decode_step_wit :
    read_elem (fun s => some (s.length, s.drop 2))
        [255, 255, 255, 255, 7, 7] = .ok (none, [7, 7]) ∧
      read_elem (fun s => some (s.length, s.drop 2))
          [0, 0, 0, 2, 7, 7] = .ok (some 2, []) ∧
      read_elem (fun s => some (s.length, s.drop 1))
          [0, 0, 0, 2, 7, 7] = .error .notConsumed := by
  refine ⟨?_, ?_, ?_⟩
  · exact (element_decode_step Nat (fun s => some (s.length, s.drop 2))
      [255, 255, 255, 255, 7, 7] [7, 7] (-1) 0 []).1 (by decide) (by decide)
  · exact (element_decode_step Nat (fun s => some (s.length, s.drop 2))
      [0, 0, 0, 2, 7, 7] [7, 7] 2 2 []).2.1 (by decide) (by decide)
      (by decide) (by decide)
  · exact (element_decode_step Nat (fun s => some (s.length, s.drop 1))
      [0, 0, 0, 2, 7, 7] [7, 7] 2 2 [7]).2.2 (by decide) (by decide)
      (by decide) (by decide) (by decide)

/-! ## Reader equations and error classification -/

theorem readU32E_writeU32 (n : Nat) (r : List Nat) :
    readU32E (writeU32 n ++ r) = .ok (n % 2 ^ 32, r) := by
  simp [readU32E, readU32_writeU32]

theorem readI32E_writeI32 (z : Int) (r : List Nat) :
    readI32E (writeI32 z ++ r) = .ok (i32wrap z, r) := by
  simp [readI32E, readI32_writeI32]

theorem readU32E_short {s : List Nat} (h : s.length < 4) :
    readU32E s = .error .eof := by
  simp [readU32E, readU32_eq_none h]

theorem readI32E_short {s : List Nat} (h : s.length < 4) :
    readI32E s = .error .eof := by
  simp [readI32E, readI32_eq_none h]

theorem bind_ok_eq {ε : Type u} {α β : Type v} (x : α) (f : α → Except ε β) :
    (Except.ok x >>= f) = f x := rfl

theorem bind_error_eq {ε : Type u} {α β : Type v} (e : ε)
    (f : α → Except ε β) :
    ((Except.error e : Except ε α) >>= f) = Except.error e := rfl

theorem readU32E_error {s : List Nat} {e : DecodeError}
    (h : readU32E s = .error e) : e = .eof := by
  unfold readU32E at h
  cases hr : readU32 s <;> rw [hr] at h <;> simp at h
  exact h.symm

theorem readI32E_error {s : List Nat} {e : DecodeError}
    (h : readI32E s = .error e) : e = .eof := by
  unfold readI32E at h
  cases hr : readI32 s <;> rw [hr] at h <;> simp at h
  exact h.symm

theorem read_dims_error {n : Nat} {s : List Nat} {e : DecodeError}
    (h : read_dims n s = .error e) : e = .eof := by
  induction n generalizing s with
  | zero => simp [read_dims] at h
  | succ m ih =>
      rw [read_dims] at h
      cases h1 : readU32E s with
      | error e1 =>
          rw [h1, bind_error_eq] at h
          cases h
          exact readU32E_error h1
      | ok p1 =>
          obtain ⟨v1, s1⟩ := p1
          rw [h1, bind_ok_eq] at h
          dsimp only at h
          cases h2 : readI32E s1 with
          | error e2 =>
              rw [h2, bind_error_eq] at h
              cases h
              exact readI32E_error h2
          | ok p2 =>
              obtain ⟨v2, s2⟩ := p2
              rw [h2, bind_ok_eq] at h
              dsimp only at h
              cases h3 : read_dims m s2 with
              | error e3 =>
                  rw [h3, bind_error_eq] at h
                  cases h
                  exact ih h3
              | ok p3 =>
                  obtain ⟨ds, s3⟩ := p3
                  rw [h3, bind_ok_eq] at h
                  simp [pure, Except.pure] at h

theorem read_elem_error {δ : List Nat → Option (α × List Nat)} {s : List Nat}
    {e : DecodeError} (h : read_elem δ s = .error e) : e ≠ .panicked := by
  unfold read_elem at h
  cases hr : readI32 s with
  | none =>
      rw [hr] at h
      cases h
      simp
  | some p =>
      obtain ⟨len, r⟩ := p
      rw [hr] at h
      dsimp only at h
      split at h
      · simp at h
      · cases hδ : δ (r.take len.toNat) with
        | none =>
            rw [hδ] at h
            cases h
            simp
        | some q =>
            obtain ⟨v, rem⟩ := q
            rw [hδ] at h
            dsimp only at h
            split at h
            · simp at h
            · cases h
              simp

theorem read_elems_error {δ : List Nat → Option (α × List Nat)} {n : Nat}
    {s : List Nat} {e : DecodeError} (h : read_elems δ n s = .error e) :
    e ≠ .panicked := by
  induction n generalizing s with
  | zero => simp [read_elems] at h
  | succ m ih =>
      rw [read_elems] at h
      cases h1 : read_elem δ s with
      | error e1 =>
          rw [h1, bind_error_eq] at h
          cases h
          exact read_elem_error h1
      | ok p1 =>
          obtain ⟨v1, s1⟩ := p1
          rw [h1, bind_ok_eq] at h
          dsimp only at h
          cases h2 : read_elems δ m s1 with
          | error e2 =>
              rw [h2, bind_error_eq] at h
              cases h
              exact ih h2
          | ok p2 =>
              obtain ⟨vs, s2⟩ := p2
              rw [h2, bind_ok_eq] at h
              simp [pure, Except.pure] at h

/-! ## `read_dims` on encoded and truncated dimension sections -/

theorem dim_bytes_eq (d : Dimension) :
    dim_bytes d = writeU32 (d.len % 2 ^ 32).toNat ++ writeI32 d.lowerBound :=
  rfl

theorem read_dims_encoded (dims : List Dimension) (r : List Nat)
    (h : ∀ d ∈ dims, 0 ≤ d.len ∧ d.len < 2 ^ 32 ∧
      -2 ^ 31 ≤ d.lowerBound ∧ d.lowerBound < 2 ^ 31) :
    read_dims dims.length (dims.flatMap dim_bytes ++ r) = .ok (dims, r) := by
  induction dims with
  | nil => simp [read_dims]
  | cons d tl ih =>
      obtain ⟨h1, h2, h3, h4⟩ := h d (by simp)
      rw [List.flatMap_cons, List.length_cons, read_dims, dim_bytes_eq,
        List.append_assoc, List.append_assoc]
      rw [readU32E_writeU32, bind_ok_eq]
      dsimp only
      rw [readI32E_writeI32, bind_ok_eq]
      dsimp only
      rw [ih (fun d hd => h d (by simp [hd])), bind_ok_eq]
      dsimp only
      have hlen : (((d.len % 2 ^ 32).toNat % 2 ^ 32 : Nat) : Int) = d.len := by
        omega
      rw [i32wrap_eq_self h3 h4, hlen]
      rfl

theorem length_flatMap_dim_bytes (dims : List Dimension) :
    (dims.flatMap dim_bytes).length = 8 * dims.length := by
  induction dims with
  | nil => simp
  | cons d tl ih =>
      rw [List.flatMap_cons, List.length_append, ih, dim_bytes_length,
        List.length_cons]
      ring

theorem take_append_ge {w r : List Nat} {k : Nat} (h : w.length ≤ k) :
    (w ++ r).take k = w ++ r.take (k - w.length) := by
  rw [List.take_append_eq_append_take, List.take_of_length_le h]

theorem read_dims_truncated (dims : List Dimension) (k : Nat)
    (hk : k < (dims.flatMap dim_bytes).length) :
    read_dims dims.length ((dims.flatMap dim_bytes).take k) = .error .eof := by
  induction dims generalizing k with
  | nil => simp at hk
  | cons d tl ih =>
      rw [List.flatMap_cons] at hk ⊢
      rw [List.length_append, dim_bytes_length] at hk
      rw [List.length_cons, read_dims]
      by_cases hk4 : k < 4
      · have hshort :
            ((dim_bytes d ++ tl.flatMap dim_bytes).take k).length < 4 := by
          rw [List.length_take]
          omega
        rw [readU32E_short hshort, bind_error_eq]
      · rw [dim_bytes_eq, List.append_assoc,
          take_append_ge (by rw [writeU32_length]; omega), writeU32_length]
        rw [readU32E_writeU32, bind_ok_eq]
        dsimp only
        by_cases hk8 : k < 8
        · have hshort :
              (((writeI32 d.lowerBound ++
                tl.flatMap dim_bytes)).take (k - 4)).length < 4 := by
            rw [List.length_take, List.length_append, writeI32_length]
            omega
          rw [readI32E_short hshort, bind_error_eq]
        · rw [take_append_ge (by rw [writeI32_length]; omega), writeI32_length]
          rw [readI32E_writeI32, bind_ok_eq]
          dsimp only
          rw [ih (k - 4 - 4) (by omega), bind_error_eq]

/-! ## `read_elem`/`read_elems` on encoded and truncated element sections -/

theorem elem_bytes_null (εp : α → List Nat) :
    elem_bytes (opt_enc εp) none = writeI32 (-1) := rfl

theorem elem_bytes_some (εp : α → List Nat) (x : α) :
    elem_bytes (opt_enc εp) (some x) =
      writeI32 (i32ofNat (εp x).length) ++ εp x := rfl

theorem i32wrap_i32ofNat {n : Nat} (h : n < 2 ^ 31) :
    i32wrap (i32ofNat n) = (n : Int) := by
  rw [i32ofNat_eq_self h]
  exact i32wrap_eq_self (by omega) (by exact_mod_cast h)

theorem read_elem_null (δ : List Nat → Option (α × List Nat))
    (εp : α → List Nat) (r : List Nat) :
    read_elem δ (elem_bytes (opt_enc εp) none ++ r) = .ok (none, r) := by
  rw [elem_bytes_null]
  unfold read_elem
  rw [readI32_writeI32]
  dsimp only
  rw [if_pos (by decide)]

theorem read_elem_present (δ : List Nat → Option (α × List Nat))
    (εp : α → List Nat) (x : α) (r : List Nat)
    (hrt : δ (εp x) = some (x, [])) (hlen : (εp x).length < 2 ^ 31) :
    read_elem δ (elem_bytes (opt_enc εp) (some x) ++ r) = .ok (some x, r) := by
  rw [elem_bytes_some, List.append_assoc]
  unfold read_elem
  rw [readI32_writeI32]
  dsimp only
  rw [i32wrap_i32ofNat hlen]
  rw [if_neg (by omega)]
  have htoNat : (((εp x).length : Int)).toNat = (εp x).length := by omega
  rw [htoNat, List.take_left, hrt]
  dsimp only
  rw [if_pos (by simp), List.drop_left]

theorem read_elems_encoded (εp : α → List Nat)
    (δ : List Nat → Option (α × List Nat)) (data : List (Option α))
    (r : List Nat) (hrt : ∀ x, δ (εp x) = some (x, []))
    (hlen : ∀ x, (εp x).length < 2 ^ 31) :
    read_elems δ data.length
      (data.flatMap (elem_bytes (opt_enc εp)) ++ r) = .ok (data, r) := by
  induction data with
  | nil => simp [read_elems]
  | cons v tl ih =>
      rw [List.flatMap_cons, List.length_cons, read_elems, List.append_assoc]
      cases v with
      | none =>
          rw [read_elem_null, bind_ok_eq]
          dsimp only
          rw [ih, bind_ok_eq]
          rfl
      | some x =>
          rw [read_elem_present δ εp x _ (hrt x) (hlen x), bind_ok_eq]
          dsimp only
          rw [ih, bind_ok_eq]
          rfl

theorem read_elems_ok_length {δ : List Nat → Option (α × List Nat)} {n : Nat}
    {s : List Nat} {vs : List (Option α)} {s2 : List Nat}
    (h : read_elems δ n s = .ok (vs, s2)) : vs.length = n := by
  induction n generalizing s vs s2 with
  | zero =>
      rw [read_elems] at h
      simp only [Except.ok.injEq, Prod.mk.injEq] at h
      rw [← h.1]
      rfl
  | succ m ih =>
      rw [read_elems] at h
      cases h1 : read_elem δ s with
      | error e =>
          rw [h1, bind_error_eq] at h
          simp at h
      | ok p =>
          obtain ⟨v, s1⟩ := p
          rw [h1, bind_ok_eq] at h
          dsimp only at h
          cases h2 : read_elems δ m s1 with
          | error e =>
              rw [h2, bind_error_eq] at h
              simp at h
          | ok q =>
              obtain ⟨vs1, s3⟩ := q
              rw [h2, bind_ok_eq] at h
              simp only [pure, Except.pure, Except.ok.injEq,
                Prod.mk.injEq] at h
              rw [← h.1]
              simp [ih h2]

theorem read_elems_truncated (εp : α → List Nat)
    (δ : List Nat → Option (α × List Nat)) (data : List (Option α)) (k : Nat)
    (hlen : ∀ x, (εp x).length < 2 ^ 31)
    (hk : k < (data.flatMap (elem_bytes (opt_enc εp))).length) :
    (read_elems δ data.length
      ((data.flatMap (elem_bytes (opt_enc εp))).take k)).isOk = false := by
  induction data generalizing k with
  | nil => simp at hk
  | cons v tl ih =>
      rw [List.flatMap_cons] at hk ⊢
      rw [List.length_cons, read_elems]
      by_cases hk4 : k < 4
      · have hshort : ((elem_bytes (opt_enc εp) v ++
            tl.flatMap (elem_bytes (opt_enc εp))).take k).length < 4 := by
          rw [List.length_take]
          omega
        have hre : read_elem δ ((elem_bytes (opt_enc εp) v ++
            tl.flatMap (elem_bytes (opt_enc εp))).take k) = .error .eof := by
          unfold read_elem
          rw [readI32_eq_none hshort]
        rw [hre, bind_error_eq]
        rfl
      · cases v with
        | none =>
            rw [elem_bytes_null] at hk ⊢
            rw [take_append_ge (by rw [writeI32_length]; omega),
              writeI32_length]
            have hre : read_elem δ (writeI32 (-1) ++
                (tl.flatMap (elem_bytes (opt_enc εp))).take (k - 4)) =
                  .ok (none, (tl.flatMap (elem_bytes (opt_enc εp))).take
                    (k - 4)) := by
              unfold read_elem
              rw [readI32_writeI32]
              dsimp only
              rw [if_pos (by decide)]
            rw [hre, bind_ok_eq]
            dsimp only
            have hk2 : k - 4 < (tl.flatMap (elem_bytes (opt_enc εp))).length := by
              rw [List.length_append, writeI32_length] at hk
              omega
            cases h2 : read_elems δ tl.length
                ((tl.flatMap (elem_bytes (opt_enc εp))).take (k - 4)) with
            | error e =>
                rw [bind_error_eq]
                rfl
            | ok q =>
                have hih := ih (k - 4) hk2
                rw [h2] at hih
                simp [Except.isOk, Except.toBool] at hih
        | some x =>
            rw [elem_bytes_some] at hk ⊢
            rw [List.append_assoc] at hk ⊢
            rw [take_append_ge (by rw [writeI32_length]; omega),
              writeI32_length]
            have hv := i32wrap_i32ofNat (hlen x)
            have htoNat : (((εp x).length : Int)).toNat = (εp x).length := by
              omega
            by_cases hkL : k - 4 < (εp x).length
            · -- truncated inside the declared payload
              have hre : (read_elem δ (writeI32 (i32ofNat (εp x).length) ++
                  ((εp x ++ tl.flatMap (elem_bytes (opt_enc εp))).take
                    (k - 4)))).isOk = false := by
                unfold read_elem
                rw [readI32_writeI32]
                dsimp only
                rw [hv, if_neg (by omega), htoNat]
                rw [List.take_of_length_le (by rw [List.length_take]; omega)]
                cases hδ : δ ((εp x ++
                    tl.flatMap (elem_bytes (opt_enc εp))).take (k - 4)) with
                | none => rfl
                | some q =>
                    obtain ⟨v2, rem⟩ := q
                    dsimp only
                    rw [if_neg (by
                      rw [List.length_take]
                      omega)]
                    rfl
              cases hre2 : read_elem δ (writeI32 (i32ofNat (εp x).length) ++
                  ((εp x ++ tl.flatMap (elem_bytes (opt_enc εp))).take
                    (k - 4))) with
              | error e =>
                  rw [bind_error_eq]
                  rfl
              | ok q =>
                  rw [hre2] at hre
                  simp [Except.isOk, Except.toBool] at hre
            · -- the whole element is present; recurse into the tail
              rw [take_append_ge (by omega)]
              have hk2 : k - 4 - (εp x).length <
                  (tl.flatMap (elem_bytes (opt_enc εp))).length := by
                rw [List.length_append, writeI32_length,
                  List.length_append] at hk
                omega
              unfold read_elem
              rw [readI32_writeI32]
              dsimp only
              rw [hv, if_neg (by omega), htoNat, List.take_left]
              cases hδ : δ (εp x) with
              | none => rfl
              | some q =>
                  obtain ⟨v2, rem⟩ := q
                  dsimp only
                  by_cases hcons : (εp x).length - rem.length = (εp x).length
                  · rw [if_pos hcons, bind_ok_eq]
                    dsimp only
                    rw [List.drop_left]
                    cases h2 : read_elems δ tl.length
                        ((tl.flatMap (elem_bytes (opt_enc εp))).take
                          (k - 4 - (εp x).length)) with
                    | error e =>
                        rw [bind_error_eq]
                        rfl
                    | ok q2 =>
                        have hih := ih (k - 4 - (εp x).length) hk2
                        rw [h2] at hih
                        simp [Except.isOk, Except.toBool] at hih
                  · rw [if_neg hcons, bind_error_eq]
                    rfl

/-! ## `nele` and the final `from_parts` of decoding -/

theorem natfold_emod_prod (dims : List Dimension) (p : Nat) (z : Int)
    (hnn : ∀ d ∈ dims, 0 ≤ d.len)
    (h : (p : Int) % 2 ^ 64 = z % 2 ^ 64) :
    ((dims.foldl (fun p d => p * d.len.toNat % 2 ^ 64) p : Nat) : Int) %
        2 ^ 64 = (dims.foldl (fun acc d => acc * d.len) z) % 2 ^ 64 := by
  induction dims generalizing p z with
  | nil => simpa using h
  | cons d tl ih =>
      simp only [List.foldl_cons]
      refine ih _ _ (fun e he => hnn e (by simp [he])) ?_
      have hd := hnn d (by simp)
      calc ((p * d.len.toNat % 2 ^ 64 : Nat) : Int) % 2 ^ 64
          = ((p : Int) * ((d.len.toNat : Nat) : Int)) % 2 ^ 64 := by
            push_cast
            rw [Int.emod_emod_of_dvd _ dvd_rfl]
        _ = ((p : Int) * d.len) % 2 ^ 64 := by
            rw [Int.toNat_of_nonneg hd]
        _ = (z * d.len) % 2 ^ 64 := Int.ModEq.mul_right d.len h

theorem natfoldW_shape (dims : List Dimension) (p : Nat) (h : dims ≠ []) :
    ∃ t, dims.foldl (fun p d => p * d.len.toNat % 2 ^ 64) p = t % 2 ^ 64 := by
  induction dims generalizing p with
  | nil => exact absurd rfl h
  | cons d tl ih =>
      match tl, ih with
      | [], _ => exact ⟨p * d.len.toNat, rfl⟩
      | e :: tl2, ih =>
          obtain ⟨t, ht⟩ := ih (p * d.len.toNat % 2 ^ 64) (by simp)
          exact ⟨t, ht⟩

theorem nele_of_nonempty (dims : List Dimension) (h : dims ≠ []) :
    nele_of dims = dims.foldl (fun p d => p * d.len.toNat % 2 ^ 64) 1 := by
  unfold nele_of
  rw [if_neg (by simpa [List.isEmpty_iff] using h)]

theorem nele_of_lt (dims : List Dimension) (h : dims ≠ []) :
    nele_of dims < 2 ^ 64 := by
  obtain ⟨t, ht⟩ := natfoldW_shape dims 1 h
  rw [nele_of_nonempty dims h, ht]
  exact Nat.mod_lt t (by norm_num)

theorem nele_of_eq_length {dims : List Dimension} {n : Nat}
    (hnn : ∀ d ∈ dims, 0 ≤ d.len) (hn : n < 2 ^ 64)
    (hinv : (n : Int) = prodLens dims) (hne : dims ≠ []) :
    nele_of dims = n := by
  have h1 := natfold_emod_prod dims 1 1 hnn (by norm_num)
  rw [show (dims.foldl (fun acc d => acc * d.len) 1) = prodLens dims from rfl,
    ← hinv] at h1
  have h3 := nele_of_lt dims hne
  rw [nele_of_nonempty dims hne] at h3 ⊢
  omega

theorem i32_check_of_prod {n : Nat} {dims : List Dimension}
    (hne : dims ≠ []) (hinv : (n : Int) = prodLens dims) :
    i32ofNat n = i32prodLens dims := by
  have hr := i32prodLens_range dims hne
  refine eq_of_emod_eq_of_range ?_ (i32wrap_lb _) (i32wrap_lt _) hr.1 hr.2
  unfold i32ofNat
  rw [i32wrap_emod, i32prodLens_emod, hinv]

/-- `Array::from_parts` succeeds on any data/dims pair that satisfies the
spec's size story (both empty, or the exact product equation). -/
theorem from_parts_of_valid (data : List τ) (dims : List Dimension)
    (h : (dims = [] ∧ data = []) ∨
      (dims ≠ [] ∧ (data.length : Int) = prodLens dims)) :
    from_parts data dims = some ⟨dims, data⟩ := by
  unfold from_parts
  rcases h with ⟨h1, h2⟩ | ⟨h1, h2⟩
  · subst h1
    subst h2
    rfl
  · rw [if_pos ?_]
    simp only [Bool.or_eq_true, Bool.and_eq_true, List.isEmpty_iff,
      beq_iff_eq]
    exact Or.inr (i32_check_of_prod h1 h2)

theorem read_dims_nonneg {n : Nat} {s : List Nat} {dims : List Dimension}
    {s2 : List Nat} (h : read_dims n s = .ok (dims, s2)) :
    ∀ d ∈ dims, 0 ≤ d.len := by
  induction n generalizing s dims s2 with
  | zero =>
      rw [read_dims] at h
      simp only [Except.ok.injEq, Prod.mk.injEq] at h
      rw [← h.1]
      simp
  | succ m ih =>
      rw [read_dims] at h
      cases h1 : readU32E s with
      | error e =>
          rw [h1, bind_error_eq] at h
          simp at h
      | ok p1 =>
          obtain ⟨v1, s1⟩ := p1
          rw [h1, bind_ok_eq] at h
          dsimp only at h
          cases h2 : readI32E s1 with
          | error e =>
              rw [h2, bind_error_eq] at h
              simp at h
          | ok p2 =>
              obtain ⟨v2, s3⟩ := p2
              rw [h2, bind_ok_eq] at h
              dsimp only at h
              cases h3 : read_dims m s3 with
              | error e =>
                  rw [h3, bind_error_eq] at h
                  simp at h
              | ok p3 =>
                  obtain ⟨ds, s4⟩ := p3
                  rw [h3, bind_ok_eq] at h
                  simp only [pure, Except.pure, Except.ok.injEq,
                    Prod.mk.injEq] at h
                  rw [← h.1]
                  intro d hd
                  rcases List.mem_cons.mp hd with hh | ht
                  · rw [hh]
                    exact Int.ofNat_nonneg v1
                  · exact ih h3 d ht

/-- The `from_parts` call at the end of decoding always succeeds: the number
of decoded elements equals `nele`, which is congruent (mod `2^32`) to the
`i32` product that `from_parts` checks. -/
theorem from_parts_nele (elems : List (Option α)) (dims : List Dimension)
    (hnn : ∀ d ∈ dims, 0 ≤ d.len) (hlen : elems.length = nele_of dims) :
    from_parts elems dims = some ⟨dims, elems⟩ := by
  cases hde : dims with
  | nil =>
      subst hde
      have h0 : elems = [] := by
        refine List.length_eq_zero.mp ?_
        rw [hlen]
        rfl
      subst h0
      rfl
  | cons d tl =>
      have hne : dims ≠ [] := by rw [hde]; simp
      rw [← hde]
      unfold from_parts
      rw [if_pos ?_]
      simp only [Bool.or_eq_true, Bool.and_eq_true, List.isEmpty_iff,
        beq_iff_eq]
      refine Or.inr ?_
      have hr := i32prodLens_range dims hne
      refine eq_of_emod_eq_of_range ?_ (i32wrap_lb _) (i32wrap_lt _) hr.1 hr.2
      unfold i32ofNat
      rw [i32wrap_emod, i32prodLens_emod, hlen]
      have h64 := natfold_emod_prod dims 1 1 hnn (by norm_num)
      rw [← nele_of_nonempty dims hne] at h64
      rw [show (dims.foldl (fun acc d => acc * d.len) 1) = prodLens dims
        from rfl] at h64
      omega

/-- `from_sql` can never hit the `from_parts` panic: every failure is a
returned decode-error value. -/
theorem array_from_sql_ne_panicked {α : Type}
    (δ : List Nat → Option (α × List Nat)) (s : List Nat) :
    array_from_sql δ s ≠ .error .panicked := by
  unfold array_from_sql
  cases h1 : readU32E s with
  | error e =>
      rw [bind_error_eq]
      intro hc
      rw [readU32E_error h1] at hc
      simp at hc
  | ok p1 =>
      obtain ⟨ndim, s1⟩ := p1
      rw [bind_ok_eq]
      dsimp only
      cases h2 : readI32E s1 with
      | error e =>
          rw [bind_error_eq]
          intro hc
          rw [readI32E_error h2] at hc
          simp at hc
      | ok p2 =>
          obtain ⟨hn, s2⟩ := p2
          rw [bind_ok_eq]
          dsimp only
          cases h3 : readU32E s2 with
          | error e =>
              rw [bind_error_eq]
              intro hc
              rw [readU32E_error h3] at hc
              simp at hc
          | ok p3 =>
              obtain ⟨oid, s3⟩ := p3
              rw [bind_ok_eq]
              dsimp only
              cases h4 : read_dims ndim s3 with
              | error e =>
                  rw [bind_error_eq]
                  intro hc
                  rw [read_dims_error h4] at hc
                  simp at hc
              | ok p4 =>
                  obtain ⟨dims, s4⟩ := p4
                  rw [bind_ok_eq]
                  dsimp only
                  cases h5 : read_elems δ (nele_of dims) s4 with
                  | error e =>
                      rw [bind_error_eq]
                      intro hc
                      exact read_elems_error h5 (Except.error.inj hc)
                  | ok p5 =>
                      obtain ⟨elems, s5⟩ := p5
                      rw [bind_ok_eq]
                      dsimp only
                      rw [from_parts_nele elems dims (read_dims_nonneg h4)
                        (read_elems_ok_length h5)]
                      simp [pure, Except.pure]

/-! ## C1: decode of encode -/

/-- C1 counterexample: the claim quantifies over every `Array`, but the
(constructible) zero-dimension array holding one element does not round
trip: decoding its encoding succeeds with the empty array, because decode
maps zero dimensions to zero elements and ignores the trailing element
bytes. -/
theorem decode_encode_cex :
    from_parts [some ()] ([] : List Dimension) = some ⟨[], [some ()]⟩ ∧
      array_from_sql (fun s => some ((), s))
          (array_to_sql (opt_enc (fun _ => ([] : List Nat))) 23
            (⟨[], [some ()]⟩ : Array (Option Unit))) = .ok ⟨[], []⟩ ∧
      (⟨[], []⟩ : Array (Option Unit)) ≠ ⟨[], [some ()]⟩ :=
  ⟨by decide, by decide, by decide⟩

/-- C1 (amended): for every element codec that round-trips each element
within the `i32` payload bound, and every `Array` whose dimensions fit the
wire ranges and whose shape satisfies the size equation with nonempty dims
(or is the empty array), decoding the encoding returns the same array —
dimension lengths, lower bounds, element order and the present/null pattern
included.  The zero-dimension array with non-empty data (accepted by
`from_parts`) is excluded: it decodes to the empty array. -/
theorem decode_encode_roundtrip (α : Type) (εp : α → List Nat)
    (δ : List Nat → Option (α × List Nat)) (oid : Nat) (a : Array (Option α))
    (hrt : ∀ x, δ (εp x) = some (x, []))
    (hεlen : ∀ x, (εp x).length < 2 ^ 31)
    (hdims : ∀ d ∈ a.dims, 0 ≤ d.len ∧ d.len < 2 ^ 32 ∧
      -2 ^ 31 ≤ d.lowerBound ∧ d.lowerBound < 2 ^ 31)
    (hnd : a.dims.length < 2 ^ 32)
    (hdat : a.data.length < 2 ^ 64)
    (hshape : (a.dims = [] ∧ a.data = []) ∨
      (a.dims ≠ [] ∧ (a.data.length : Int) = prodLens a.dims)) :
    array_from_sql δ (array_to_sql (opt_enc εp) oid a) = .ok a := by
  obtain ⟨adims, adata⟩ := a
  dsimp only at hdims hnd hdat hshape ⊢
  rw [array_to_sql_eq]
  dsimp only
  simp only [List.append_assoc]
  unfold array_from_sql
  rw [readU32E_writeU32, bind_ok_eq]
  dsimp only
  rw [Nat.mod_eq_of_lt hnd]
  rw [readI32E_writeI32, bind_ok_eq]
  dsimp only
  rw [readU32E_writeU32, bind_ok_eq]
  dsimp only
  rw [read_dims_encoded adims _ hdims, bind_ok_eq]
  dsimp only
  rcases hshape with ⟨hd0, he0⟩ | ⟨hne, hinv⟩
  · subst hd0
    subst he0
    rw [show nele_of [] = 0 from rfl, read_elems, bind_ok_eq]
    dsimp only
    rfl
  · have hnn : ∀ d ∈ adims, 0 ≤ d.len := fun d hd => (hdims d hd).1
    rw [nele_of_eq_length hnn hdat hinv hne]
    have hre := read_elems_encoded εp δ adata [] hrt hεlen
    rw [List.append_nil] at hre
    rw [hre, bind_ok_eq]
    dsimp only
    rw [from_parts_of_valid adata adims (Or.inr ⟨hne, hinv⟩)]
    rfl

/-- Witness for C1: a one-dimensional array with a present and a null
element over the trivial `Unit` codec round-trips. -/
theorem decode_encode_roundtrip_wit :
    array_from_sql (fun s => some ((), s))
        (array_to_sql (opt_enc (fun _ => ([] : List Nat))) 23
          (⟨[⟨2, 1⟩], [some (), none]⟩ : Array (Option Unit))) =
      .ok ⟨[⟨2, 1⟩], [some (), none]⟩ :=
  decode_encode_roundtrip Unit (fun _ => []) (fun s => some ((), s)) 23
    ⟨[⟨2, 1⟩], [some (), none]⟩ (fun x => by cases x; rfl)
    (fun x => by show ([] : List Nat).length < 2 ^ 31; decide) (by decide)
    (by decide) (by decide) (by decide)

/-! ## C8: truncation safety -/

theorem decode_truncated_header (α : Type)
    (δ : List Nat → Option (α × List Nat)) (n1 : Nat) (z : Int) (n2 : Nat)
    (r : List Nat) (k : Nat) (hk : k < 12) :
    (array_from_sql δ
      ((writeU32 n1 ++ (writeI32 z ++ (writeU32 n2 ++ r))).take k)).isOk =
      false := by
  by_cases hk4 : k < 4
  · have hshort : (((writeU32 n1 ++
        (writeI32 z ++ (writeU32 n2 ++ r)))).take k).length < 4 := by
      rw [List.length_take]
      omega
    unfold array_from_sql
    rw [readU32E_short hshort, bind_error_eq]
    rfl
  · rw [take_append_ge (by rw [writeU32_length]; omega), writeU32_length]
    unfold array_from_sql
    rw [readU32E_writeU32, bind_ok_eq]
    dsimp only
    by_cases hk8 : k < 8
    · have hshort : (((writeI32 z ++ (writeU32 n2 ++ r))).take
          (k - 4)).length < 4 := by
        rw [List.length_take]
        omega
      rw [readI32E_short hshort, bind_error_eq]
      rfl
    · rw [take_append_ge (by rw [writeI32_length]; omega), writeI32_length]
      rw [readI32E_writeI32, bind_ok_eq]
      dsimp only
      have hshort : (((writeU32 n2 ++ r)).take (k - 4 - 4)).length < 4 := by
        rw [List.length_take]
        omega
      rw [readU32E_short hshort, bind_error_eq]
      rfl

/-- C8: truncating a well-formed encoding anywhere before its end makes
decode return an error value (first conjunct), and decode never reaches the
`from_parts` panic on any input whatsoever (second conjunct) — all failures
are returned decode-error values. -/
theorem decode_truncation_safe :
    (∀ (α : Type) (εp : α → List Nat) (δ : List Nat → Option (α × List Nat))
      (oid : Nat) (a : Array (Option α)) (k : Nat),
      (∀ x, (εp x).length < 2 ^ 31) →
      (∀ d ∈ a.dims, 0 ≤ d.len ∧ d.len < 2 ^ 32 ∧
        -2 ^ 31 ≤ d.lowerBound ∧ d.lowerBound < 2 ^ 31) →
      a.dims.length < 2 ^ 32 →
      a.data.length < 2 ^ 64 →
      ((a.dims = [] ∧ a.data = []) ∨
        (a.dims ≠ [] ∧ (a.data.length : Int) = prodLens a.dims)) →
      k < (array_to_sql (opt_enc εp) oid a).length →
      (array_from_sql δ ((array_to_sql (opt_enc εp) oid a).take k)).isOk =
        false) ∧
    (∀ (β : Type) (δ2 : List Nat → Option (β × List Nat)) (s : List Nat),
      array_from_sql δ2 s ≠ .error .panicked) := by
  constructor
  · intro α εp δ oid a k hεlen hdims hnd hdat hshape hk
    obtain ⟨adims, adata⟩ := a
    dsimp only at hdims hnd hdat hshape hk ⊢
    rw [array_to_sql_eq] at hk ⊢
    dsimp only at hk ⊢
    simp only [List.append_assoc] at hk ⊢
    simp only [List.length_append, writeU32_length, writeI32_length] at hk
    by_cases hk12 : k < 12
    · exact decode_truncated_header α δ adims.length 1 oid _ k hk12
    · rw [take_append_ge (by rw [writeU32_length]; omega), writeU32_length]
      rw [take_append_ge (by rw [writeI32_length]; omega), writeI32_length]
      rw [take_append_ge (by rw [writeU32_length]; omega), writeU32_length]
      unfold array_from_sql
      rw [readU32E_writeU32, bind_ok_eq]
      dsimp only
      rw [Nat.mod_eq_of_lt hnd]
      rw [readI32E_writeI32, bind_ok_eq]
      dsimp only
      rw [readU32E_writeU32, bind_ok_eq]
      dsimp only
      by_cases hkD : k - 4 - 4 - 4 < (adims.flatMap dim_bytes).length
      · have htk : ((adims.flatMap dim_bytes ++
            adata.flatMap (elem_bytes (opt_enc εp))).take (k - 4 - 4 - 4)) =
              (adims.flatMap dim_bytes).take (k - 4 - 4 - 4) := by
          rw [List.take_append_eq_append_take]
          rw [show k - 4 - 4 - 4 - (adims.flatMap dim_bytes).length = 0 by
            omega]
          simp
        rw [htk, read_dims_truncated adims _ hkD, bind_error_eq]
        rfl
      · rcases hshape with ⟨hd0, he0⟩ | ⟨hne, hinv⟩
        · subst hd0
          subst he0
          simp at hk hkD
          omega
        · rw [take_append_ge (by omega)]
          rw [read_dims_encoded adims _ hdims, bind_ok_eq]
          dsimp only
          have hnn : ∀ d ∈ adims, 0 ≤ d.len := fun d hd => (hdims d hd).1
          rw [nele_of_eq_length hnn hdat hinv hne]
          have hkE : k - 4 - 4 - 4 - (adims.flatMap dim_bytes).length <
              (adata.flatMap (elem_bytes (opt_enc εp))).length := by
            omega
          have hih := read_elems_truncated εp δ adata _ hεlen hkE
          cases h2 : read_elems δ adata.length
              ((adata.flatMap (elem_bytes (opt_enc εp))).take
                (k - 4 - 4 - 4 - (adims.flatMap dim_bytes).length)) with
          | error e =>
              rw [bind_error_eq]
              rfl
          | ok q =>
              rw [h2] at hih
              simp [Except.isOk, Except.toBool] at hih
  · intro β δ2 s
    exact array_from_sql_ne_panicked δ2 s

/-- Witness for C8: truncating a concrete two-element encoding inside the
dimension header yields a decode error, and a concrete garbage buffer does
not produce the panic marker. -/
theorem decode_truncation_safe_wit :
    (array_from_sql (fun s => some ((), s))
      ((array_to_sql (opt_enc (fun _ => ([] : List Nat))) 23
        (⟨[⟨2, 1⟩], [some (), none]⟩ : Array (Option Unit))).take 13)).isOk =
        false ∧
      array_from_sql (fun s : List Nat => some ((), s)) [1, 2, 3] ≠
        .error .panicked :=
  ⟨decode_truncation_safe.1 Unit (fun _ => []) (fun s => some ((), s)) 23
      ⟨[⟨2, 1⟩], [some (), none]⟩ 13
      (fun x => by show ([] : List Nat).length < 2 ^ 31; decide) (by decide)
      (by decide) (by decide) (by decide) (by decide),
    decode_truncation_safe.2 Unit (fun s => some ((), s)) [1, 2, 3]⟩

end PostgresArray
